import Mathlib

/-!
Verification of `usdc_checker.py`: a script that filters a list of Base
addresses down to those holding a non-zero USDC balance, using Multicall3
aggregated `balanceOf` reads.

The development shallowly embeds the script's pure logic:
  * `pyDecDivPow10`, `decToString` — Python `decimal` semantics (General
    Decimal Arithmetic, default context: precision 28, ROUND_HALF_EVEN) for
    `str(Decimal(raw) / (Decimal(10) ** decimals))`;
  * `chunked`       — the batch slicer (`lst[i:i+n]` for `i in range(0, len, n)`);
  * `buildCalls`    — the per-batch sub-call construction loop;
  * `decodeBatch`   — the result-decoding loop (`int.from_bytes(ret[-32:], "big")`);
  * `rpc_retry`     — the retry/backoff loop, with an explicit sleep log;
  * `to_checksum_addresses` — EIP-55 validation/normalization, with keccak-256
    abstracted as an arbitrary nibble oracle;
  * `get_usdc_nonzero_multicall`, `mainRun` — the pipeline over an abstract
    RPC environment.
-/

namespace UsdcChecker

/-! # Definitions -/

/-! ## Decimal digit helpers (fuel-based so the kernel can evaluate them) -/

/-- Number of decimal digits of `n`, fuel-driven (`1` for `n = 0`). -/
def digitCountAux : ℕ → ℕ → ℕ
  | 0, _ => 1
  | fuel + 1, n => if n < 10 then 1 else digitCountAux fuel (n / 10) + 1

/-- Number of decimal digits of `n` (`1` for `n = 0`). -/
def digitCount (n : ℕ) : ℕ := digitCountAux n n

/-- Strip trailing decimal zeros: `stripZeros n = (m, k)` with `n = m * 10 ^ k`
and (for `n > 0`) `10 ∤ m`. Fuel-driven. -/
def stripZerosAux : ℕ → ℕ → ℕ × ℕ
  | 0, n => (n, 0)
  | fuel + 1, n =>
    if n ≠ 0 ∧ n % 10 = 0 then
      let p := stripZerosAux fuel (n / 10)
      (p.1, p.2 + 1)
    else (n, 0)

/-- Strip trailing decimal zeros from `n`. -/
def stripZeros (n : ℕ) : ℕ × ℕ := stripZerosAux n n

/-! ## Python `decimal` model

The script computes `str(Decimal(raw) / (Decimal(10) ** decimals))`.  Python's
`decimal` module implements the General Decimal Arithmetic specification; the
default context has precision 28 and rounding ROUND_HALF_EVEN.  We model the
resulting number as a coefficient/exponent pair and its rendering per the
to-scientific-string rules. -/

/-- Exponent of the representation CPython produces for `Decimal(10) ** D`
(coefficient `10 ^ min D 27`): the exact power is expressed with exponent as
close to the ideal exponent `0` as the 28-digit coefficient cap allows. -/
def pyPow10Exp (D : ℕ) : ℤ := if D ≤ 27 then 0 else (D : ℤ) - 27

/-- `Decimal(R) / (Decimal(10) ** D)` under the default context
(precision 28, ROUND_HALF_EVEN), as a coefficient/exponent pair.
An exact quotient is expressed with exponent as close to the ideal exponent
as the precision cap allows; an inexact quotient is rounded half-even to
28 significant digits. -/
def pyDecDivPow10 (R D : ℕ) : ℕ × ℤ :=
  let ideal : ℤ := -(pyPow10Exp D)
  if R = 0 then (0, ideal)
  else
    let m := (stripZeros R).1
    let k := (stripZeros R).2
    let e0 : ℤ := (k : ℤ) - (D : ℤ)
    if digitCount m ≤ 28 then
      if e0 ≤ ideal then (m, e0)
      else
        let pad : ℕ := min (e0 - ideal).toNat (28 - digitCount m)
        (m * 10 ^ pad, e0 - (pad : ℤ))
    else
      let t := digitCount m - 28
      let c0 := m / 10 ^ t
      let r := m % 10 ^ t
      let c := if 10 ^ t < 2 * r ∨ (2 * r = 10 ^ t ∧ c0 % 2 = 1) then c0 + 1 else c0
      if c = 10 ^ 28 then (10 ^ 27, e0 + (t : ℤ) + 1) else (c, e0 + (t : ℤ))

/-- Decimal-string rendering of a finite non-negative decimal number
`c * 10 ^ e`, following the to-scientific-string rules used by `str`. -/
def decToString (c : ℕ) (e : ℤ) : String :=
  let ds : List Char := Nat.toDigits 10 c
  let n : ℕ := ds.length
  let ae : ℤ := e + (n : ℤ) - 1
  if e ≤ 0 ∧ -6 ≤ ae then
    if e = 0 then ds.asString
    else if (n : ℤ) > -e then
      let point : ℕ := n - (-e).toNat
      (ds.take point ++ '.' :: ds.drop point).asString
    else
      "0." ++ (List.replicate ((-e).toNat - n) '0').asString ++ ds.asString
  else
    let mant : String :=
      match ds with
      | [] => ""
      | [d] => (([d] : List Char)).asString
      | d :: rest => (d :: '.' :: rest).asString
    mant ++ "E" ++ (if ae < 0 then "-" else "+") ++ Nat.repr ae.natAbs

/-- The human display string the script builds:
`str(Decimal(raw) / (Decimal(10) ** decimals))`. -/
def humanStr (raw decimals : ℕ) : String :=
  decToString (pyDecDivPow10 raw decimals).1 (pyDecDivPow10 raw decimals).2

/-- Rational value denoted by a coefficient/exponent pair `c * 10 ^ e`. -/
def decVal (c : ℕ) (e : ℤ) : ℚ :=
  if 0 ≤ e then (c : ℚ) * 10 ^ e.toNat else (c : ℚ) / 10 ^ (-e).toNat

/-! ## Data model -/

/-- Addresses travel through the script as strings. -/
abbrev Addr := String

/-- The token contract address constant `USDC_BASE`. -/
def USDC_BASE : Addr := "0x833589fCD6eDb6E08f4c7C32D4f71b54bdA02913"

/-- ABI call payloads, kept symbolic: the only shape the script encodes is
`balanceOf(address)`. -/
inductive CallData : Type
  | balanceOf (account : Addr)
deriving DecidableEq

/-- A Multicall3 sub-call descriptor `(target, allowFailure, callData)`. -/
structure SubCall : Type where
  target : Addr
  allowFailure : Bool
  callData : CallData
deriving DecidableEq

/-- A sub-call result `(success, returnData)`; the payload is a byte list. -/
abbrev SubResult := Bool × List ℕ

/-- A non-zero balance record `(addr, raw, human, symbol)` as appended to
`nonzero`. -/
structure BalanceRecord : Type where
  addr : Addr
  raw : ℕ
  human : String
  symbol : String
deriving DecidableEq

/-! ## Batching, call construction, decoding -/

/-- The slicing loop `for i in range(0, len(lst), n): yield lst[i:i+n]`:
each step takes the slice `lst[i:i+n]` and advances by `n`.  Fuel-driven
(the fuel bounds the number of slices; `lst.length` suffices for `0 < n`).
For `n = 0` the source raises `ValueError` from `range`; the model is only
used with `0 < n`. -/
def chunkedAux : ℕ → List α → ℕ → List (List α)
  | 0, _, _ => []
  | _ + 1, [], _ => []
  | fuel + 1, a :: as, n => (a :: as).take n :: chunkedAux fuel ((a :: as).drop n) n

/-- `chunked lst n`: the list of batches `lst[0:n], lst[n:2n], ...`. -/
def chunked (l : List α) (n : ℕ) : List (List α) := chunkedAux l.length l n

/-- The sub-call construction loop: for each address of the batch, append
`(USDC_BASE, True, usdc.functions.balanceOf(addr)._encode_transaction_data())`. -/
def buildCalls (batch : List Addr) : List SubCall :=
  batch.foldl
    (fun calls addr => calls ++ [⟨USDC_BASE, true, CallData.balanceOf addr⟩]) []

/-- Python `ret[-32:]`: the trailing 32 bytes, or all of `ret` if shorter. -/
def last32 (ret : List ℕ) : List ℕ := ret.drop (ret.length - 32)

/-- Python `int.from_bytes(bs, byteorder="big")`. -/
def beNat (bs : List ℕ) : ℕ := bs.foldl (fun acc b => acc * 256 + b) 0

/-- The per-batch decode loop over `zip(batch, results)`:
skip failed or empty results, read the trailing 32 bytes big-endian, and
append a record when the value is strictly positive. -/
def decodeBatch (d : ℕ) (sym : String) (batch : List Addr)
    (results : List SubResult) : List BalanceRecord :=
  (batch.zip results).foldl
    (fun nonzero pr =>
      if pr.2.1 = false ∨ pr.2.2 = [] then nonzero
      else
        let raw := beNat (last32 pr.2.2)
        if 0 < raw then nonzero ++ [⟨pr.1, raw, humanStr raw d, sym⟩] else nonzero)
    []

/-- One decoded result, as an option: the record emitted for a
`(address, (success, payload))` pair, if any. -/
def decodeOne (d : ℕ) (sym : String) (pr : Addr × SubResult) : Option BalanceRecord :=
  if pr.2.1 = true ∧ pr.2.2 ≠ [] ∧ 0 < beNat (last32 pr.2.2) then
    some ⟨pr.1, beNat (last32 pr.2.2), humanStr (beNat (last32 pr.2.2)) d, sym⟩
  else none

/-! ## Retry with backoff -/

/-- The loop body of `rpc_retry`: try attempt `i`; on success return, on
failure record the error, sleep `base * 2 ^ i`, and continue.  The returned
error is `some e` for the last caught error (`raise last_err`); `none` models
the degenerate `retries = 0` run (`raise None`).  The second component is the
log of sleep durations, in order. -/
def rpc_retry_aux (fn : ℕ → Except ε α) (base : ℚ) :
    ℕ → ℕ → Option ε → List ℚ → Except (Option ε) α × List ℚ
  | 0, _, last, slept => (Except.error last, slept)
  | rem + 1, i, _, slept =>
    match fn i with
    | Except.ok a => (Except.ok a, slept)
    | Except.error e => rpc_retry_aux fn base rem (i + 1) (some e) (slept ++ [base * 2 ^ i])

/-- `rpc_retry(fn, retries, base_delay)`.  The attempts are modelled as a
function from the attempt index to that attempt's outcome; the base delay
(source literal `0.4`, exactly representable behaviour-wise since only
doublings of it are taken) is an arbitrary rational here. -/
def rpc_retry (fn : ℕ → Except ε α) (retries : ℕ) (base : ℚ) :
    Except (Option ε) α × List ℚ :=
  rpc_retry_aux fn base retries 0 none []

/-- `retries=6` default of `rpc_retry`. -/
def RETRIES : ℕ := 6

/-- `base_delay=0.4` default of `rpc_retry`, as a rational. -/
def BASE_DELAY : ℚ := 2 / 5

/-! ## Address validation and EIP-55 checksumming

`w3.is_address` / `Web3.to_checksum_address` (eth-utils).  A valid address is
a `0x`-prefixed 40-hex-digit string; a mixed-case one must additionally carry
the correct EIP-55 checksum, while all-lower / all-upper bodies bypass the
checksum test.  Checksumming lowercases the body and uppercases exactly the
hex letters whose keccak-256 hash nibble is at least 8.  The keccak-256 hash
is abstracted as an arbitrary oracle giving a nibble per position; the case
maps are restricted to hex letters, the only letters a validated body can
contain. -/

/-- Lowercasing as applied to hex bodies (`str.lower`, restricted to the hex
letters, the only cased characters a validated body can contain). -/
def hexLower (c : Char) : Char :=
  if c = 'A' then 'a' else if c = 'B' then 'b' else if c = 'C' then 'c'
  else if c = 'D' then 'd' else if c = 'E' then 'e' else if c = 'F' then 'f' else c

/-- Uppercasing as applied to hex bodies (`str.upper`, restricted likewise). -/
def hexUpper (c : Char) : Char :=
  if c = 'a' then 'A' else if c = 'b' then 'B' else if c = 'c' then 'C'
  else if c = 'd' then 'D' else if c = 'e' then 'E' else if c = 'f' then 'F' else c

/-- Is `c` a hexadecimal digit (either case)? -/
def hexDigit (c : Char) : Bool :=
  ('0' ≤ c && c ≤ '9') || ('a' ≤ c && c ≤ 'f') || ('A' ≤ c && c ≤ 'F')

/-- The address body: the characters after the `0x` prefix. -/
def hexBody (s : String) : List Char := s.data.drop 2

/-- Syntactic shape: `0x` prefix, total length 42, hex digits only. -/
def isHex40 (s : String) : Bool :=
  decide (s.data.take 2 = ['0', 'x']) && decide (s.data.length = 42)
    && (hexBody s).all hexDigit

/-- No uppercase letters (Python `body == body.lower()`). -/
def hasNoUpper (l : List Char) : Bool := l.all fun c => !('A' ≤ c && c ≤ 'Z')

/-- No lowercase letters (Python `body == body.upper()`). -/
def hasNoLower (l : List Char) : Bool := l.all fun c => !('a' ≤ c && c ≤ 'z')

/-- The keccak-256 hash, abstracted: nibble value at a position, as a function
of the lowercased body. -/
abbrev HashOracle := List Char → ℕ → ℕ

/-- The EIP-55 casing loop: uppercase character `i` of the lowercased body
exactly when the hash nibble at `i` is at least 8. -/
def checksumCaseGo (hN : HashOracle) (low : List Char) : ℕ → List Char → List Char
  | _, [] => []
  | i, c :: cs => (if 8 ≤ hN low i then hexUpper c else c) :: checksumCaseGo hN low (i + 1) cs

/-- `Web3.to_checksum_address`: lowercase the body, then apply EIP-55 casing. -/
def toChecksumAddress (hN : HashOracle) (s : String) : String :=
  let low := (hexBody s).map hexLower
  "0x" ++ (checksumCaseGo hN low 0 low).asString

/-- `is_checksum_address`: the string equals its own checksummed form. -/
def isChecksumOk (hN : HashOracle) (s : String) : Bool :=
  decide (toChecksumAddress hN s = s)

/-- `w3.is_address`. -/
def isAddress (hN : HashOracle) (s : String) : Bool :=
  isHex40 s && (hasNoUpper (hexBody s) || hasNoLower (hexBody s) || isChecksumOk hN s)

/-- The validation loop of `to_checksum_addresses`: partition into
checksummed valid addresses and raw invalid entries, preserving order. -/
def to_checksum_addresses (hN : HashOracle) (addrs : List String) :
    List String × List String :=
  addrs.foldl
    (fun p a =>
      if isAddress hN a then (p.1 ++ [toChecksumAddress hN a], p.2)
      else (p.1, p.2 ++ [a]))
    ([], [])

/-- The stderr warning of `main` for skipped invalid addresses. -/
def invalidWarning (bad : List String) : String :=
  "Warning: skipped " ++ Nat.repr bad.length ++ " invalid address(es)."

/-! ## The fetch pipeline over an abstract RPC environment -/

/-- The RPC collaborators, as black boxes: each call site is a function from
the attempt index (and for `aggregate3`, the constructed sub-calls) to that
attempt's outcome. -/
structure RpcEnv : Type where
  decimalsAttempt : ℕ → Except String ℕ
  symbolAttempt : ℕ → Except String String
  aggregateAttempt : List SubCall → ℕ → Except String (List SubResult)

/-- The per-batch loop of `get_usdc_nonzero_multicall`: build the sub-calls,
submit them with retry, propagate an exhausted retry, and decode. -/
def runBatches (env : RpcEnv) (d : ℕ) (sym : String) :
    List (List Addr) → List BalanceRecord → Except (Option String) (List BalanceRecord)
  | [], nonzero => Except.ok nonzero
  | batch :: rest, nonzero =>
    match (rpc_retry (env.aggregateAttempt (buildCalls batch)) RETRIES BASE_DELAY).1 with
    | Except.error e => Except.error e
    | Except.ok results => runBatches env d sym rest (nonzero ++ decodeBatch d sym batch results)

/-- `get_usdc_nonzero_multicall`: fetch decimals (fatal on exhausted retries),
fetch the symbol (falling back to `"USDC"` on any failure), then run the
batches. -/
def get_usdc_nonzero_multicall (env : RpcEnv) (addresses : List Addr)
    (chunk_size : ℕ) : Except (Option String) (List BalanceRecord) :=
  match (rpc_retry env.decimalsAttempt RETRIES BASE_DELAY).1 with
  | Except.error e => Except.error e
  | Except.ok decimals =>
    let symbol : String :=
      match (rpc_retry env.symbolAttempt RETRIES BASE_DELAY).1 with
      | Except.ok s => s
      | Except.error _ => "USDC"
    runBatches env decimals symbol (chunked addresses chunk_size) []

/-! ## `main` -/

/-- The environment `main` runs against. -/
structure MainEnv : Type where
  connected : Bool
  rpcUrl : String
  fileAddrs : List String
  hN : HashOracle
  rpc : RpcEnv

/-- Observable outcome of a `main` run. -/
structure MainOutcome : Type where
  exitCode : ℕ
  stdout : List String
  stderr : List String
  csv : Option (List (List String))

/-- One stdout line per record: `f"{addr},{human} {symbol}"`. -/
def stdoutLine (r : BalanceRecord) : String :=
  r.addr ++ "," ++ r.human ++ " " ++ r.symbol

/-- The CSV header row the script writes. -/
def csvHeader : List String := ["address", "usdc_raw", "usdc", "symbol"]

/-- One CSV data row per record (the integer field via `str`). -/
def csvRow (r : BalanceRecord) : List String :=
  [r.addr, Nat.repr r.raw, r.human, r.symbol]

/-- `main`: connectivity check (exit 2 on failure), validation with a count
warning, the fetch pipeline (an exhausted decimals/aggregate retry re-raises:
the interpreter prints a traceback and exits with status 1), then reporting;
falling off the end of `main` exits with status 0. -/
def mainRun (env : MainEnv) (chunk : ℕ) (writeCsv : Bool) : MainOutcome :=
  if env.connected = false then
    { exitCode := 2, stdout := [],
      stderr := ["ERROR: Could not connect to RPC: " ++ env.rpcUrl], csv := none }
  else
    let p := to_checksum_addresses env.hN env.fileAddrs
    let warnings := if p.2 = [] then [] else [invalidWarning p.2]
    match get_usdc_nonzero_multicall env.rpc p.1 chunk with
    | Except.error _ =>
      { exitCode := 1, stdout := [], stderr := warnings, csv := none }
    | Except.ok recs =>
      { exitCode := 0, stdout := recs.map stdoutLine, stderr := warnings,
        csv := if writeCsv then some (csvHeader :: recs.map csvRow) else none }

/-! ## Decidability and demo inputs (used by concrete witnesses) -/

instance instDecEqExcept {ε α : Type} [DecidableEq ε] [DecidableEq α] :
    DecidableEq (Except ε α) := fun a b =>
  match a, b with
  | Except.ok x, Except.ok y =>
    if h : x = y then isTrue (by rw [h])
    else isFalse (by intro hc; cases hc; exact h rfl)
  | Except.error x, Except.error y =>
    if h : x = y then isTrue (by rw [h])
    else isFalse (by intro hc; cases hc; exact h rfl)
  | Except.ok _, Except.error _ => isFalse (by intro hc; cases hc)
  | Except.error _, Except.ok _ => isFalse (by intro hc; cases hc)

/-- A concrete hash oracle (all nibbles zero) for witnesses. -/
def hashZero : HashOracle := fun _ _ => 0

/-- A concrete all-lowercase valid address for witnesses. -/
def demoValidAddr : String := "0xabcdef0123456789abcdef0123456789abcdef01"

/-- Attempts that fail five times, then succeed. -/
def retryDemoOk : ℕ → Except ℕ ℕ := fun i => if i < 5 then Except.error i else Except.ok 99

/-- Attempts that always fail. -/
def retryDemoFail : ℕ → Except ℕ ℕ := fun i => Except.error i

/-- An RPC environment whose calls all succeed; one sub-result with balance 1. -/
def rpcOkEnv : RpcEnv where
  decimalsAttempt := fun _ => Except.ok 6
  symbolAttempt := fun _ => Except.ok "USDC"
  aggregateAttempt := fun _ _ => Except.ok [(true, [1])]

/-- Like `rpcOkEnv` but the symbol fetch always fails. -/
def rpcSymbolFailEnv : RpcEnv where
  decimalsAttempt := fun _ => Except.ok 6
  symbolAttempt := fun _ => Except.error "symbol boom"
  aggregateAttempt := fun _ _ => Except.ok [(true, [1])]

/-- Like `rpcOkEnv` but the decimals fetch always fails. -/
def rpcDecimalsFailEnv : RpcEnv where
  decimalsAttempt := fun _ => Except.error "decimals boom"
  symbolAttempt := fun _ => Except.ok "USDC"
  aggregateAttempt := fun _ _ => Except.ok [(true, [1])]

/-- Like `rpcOkEnv` but every sub-call fails (no balances found). -/
def rpcEmptyEnv : RpcEnv where
  decimalsAttempt := fun _ => Except.ok 6
  symbolAttempt := fun _ => Except.ok "USDC"
  aggregateAttempt := fun _ _ => Except.ok [(false, [])]

/-- A `main` environment whose RPC endpoint is unreachable. -/
def mainEnvDown : MainEnv where
  connected := false
  rpcUrl := "https://rpc.example"
  fileAddrs := [demoValidAddr]
  hN := hashZero
  rpc := rpcOkEnv

/-- A connected `main` environment with one valid address and balance 1. -/
def mainEnvOk : MainEnv where
  connected := true
  rpcUrl := "https://rpc.example"
  fileAddrs := [demoValidAddr]
  hN := hashZero
  rpc := rpcOkEnv

/-- A connected `main` environment that finds no non-zero balances. -/
def mainEnvEmpty : MainEnv where
  connected := true
  rpcUrl := "https://rpc.example"
  fileAddrs := [demoValidAddr]
  hN := hashZero
  rpc := rpcEmptyEnv

/-- A connected `main` environment with an empty address file. -/
def mainEnvNoInput : MainEnv where
  connected := true
  rpcUrl := "https://rpc.example"
  fileAddrs := []
  hN := hashZero
  rpc := rpcOkEnv

/-- The 12-byte big-endian payload encoding `10 ^ 28 + 1`. -/
def bigPayload : List ℕ := [32, 79, 206, 94, 62, 37, 2, 97, 16, 0, 0, 1]

/-! # Theorems -/

/-! ## Digit/strip facts -/

theorem stripZerosAux_spec (fuel : ℕ) :
    ∀ n : ℕ, n = (stripZerosAux fuel n).1 * 10 ^ (stripZerosAux fuel n).2 := by
  induction fuel with
  | zero => intro n; simp [stripZerosAux]
  | succ fuel ih =>
    intro n
    by_cases h : n ≠ 0 ∧ n % 10 = 0
    · have hd : 10 ∣ n := Nat.dvd_of_mod_eq_zero h.2
      have hn : n / 10 * 10 = n := Nat.div_mul_cancel hd
      simp only [stripZerosAux, if_pos h]
      calc n = n / 10 * 10 := hn.symm
        _ = (stripZerosAux fuel (n / 10)).1 * 10 ^ (stripZerosAux fuel (n / 10)).2 * 10 := by
              rw [← ih (n / 10)]
        _ = (stripZerosAux fuel (n / 10)).1 * 10 ^ ((stripZerosAux fuel (n / 10)).2 + 1) := by
              ring
    · simp [stripZerosAux, if_neg h]

theorem stripZeros_spec (n : ℕ) : n = (stripZeros n).1 * 10 ^ (stripZeros n).2 :=
  stripZerosAux_spec n n

/-! ## Decimal value facts -/

theorem decVal_sub (c a b : ℕ) :
    decVal c ((a : ℤ) - (b : ℤ)) = (c : ℚ) * 10 ^ a / 10 ^ b := by
  unfold decVal
  by_cases h : (0 : ℤ) ≤ (a : ℤ) - (b : ℤ)
  · have hba : b ≤ a := by exact_mod_cast Int.sub_nonneg.mp h
    have ht : ((a : ℤ) - (b : ℤ)).toNat = a - b := by omega
    rw [if_pos h, ht]
    rw [eq_div_iff (by positivity : (10 : ℚ) ^ b ≠ 0)]
    rw [mul_assoc, ← pow_add]
    congr 2
    omega
  · have hab : a ≤ b := by omega
    have ht : (-((a : ℤ) - (b : ℤ))).toNat = b - a := by omega
    rw [if_neg h, ht]
    rw [div_eq_div_iff (by positivity : (10 : ℚ) ^ (b - a) ≠ 0)
      (by positivity : (10 : ℚ) ^ b ≠ 0)]
    rw [mul_assoc, ← pow_add]
    congr 2
    omega

/-- Exactness: whenever the exact quotient `R / 10 ^ D` needs at most 28
significant digits, the modelled `Decimal` division is exact. -/
theorem pyDecDivPow10_exact (R D : ℕ) (hR : 0 < R)
    (hd : digitCount (stripZeros R).1 ≤ 28) :
    decVal (pyDecDivPow10 R D).1 (pyDecDivPow10 R D).2 = (R : ℚ) / 10 ^ D := by
  have hstrip := stripZeros_spec R
  set m := (stripZeros R).1 with hm
  set k := (stripZeros R).2 with hk
  have hR0 : R ≠ 0 := hR.ne'
  unfold pyDecDivPow10
  rw [if_neg hR0, ← hm, ← hk, if_pos hd]
  set ideal : ℤ := -(pyPow10Exp D) with hideal
  by_cases hle : (k : ℤ) - (D : ℤ) ≤ ideal
  · simp only [if_pos hle]
    rw [decVal_sub, hstrip]
    push_cast
    ring
  · simp only [if_neg hle]
    set pad : ℕ := min ((k : ℤ) - (D : ℤ) - ideal).toNat (28 - digitCount m) with hpad
    have hsub : (k : ℤ) - (D : ℤ) - (pad : ℤ) = ((k : ℤ) - ((D + pad : ℕ) : ℤ)) := by
      push_cast
      ring
    rw [hsub, decVal_sub, hstrip]
    push_cast [pow_add]
    by_cases hp : (10 : ℚ) ^ pad = 0
    · exact absurd hp (by positivity)
    · field_simp
      ring

/-! ## Decode loop facts -/

theorem foldl_append_toList (g : α → Option β) :
    ∀ (l : List α) (init : List β),
      l.foldl (fun acc p => acc ++ (g p).toList) init = init ++ l.filterMap g := by
  intro l
  induction l with
  | nil => intro init; simp
  | cons a l ih =>
    intro init
    rw [List.foldl_cons, ih, List.filterMap_cons]
    cases g a <;> simp

theorem decode_body_eq (d : ℕ) (sym : String) (acc : List BalanceRecord)
    (pr : Addr × SubResult) :
    (if pr.2.1 = false ∨ pr.2.2 = [] then acc
     else
       let raw := beNat (last32 pr.2.2)
       if 0 < raw then acc ++ [⟨pr.1, raw, humanStr raw d, sym⟩] else acc)
      = acc ++ (decodeOne d sym pr).toList := by
  obtain ⟨a, succ, ret⟩ := pr
  unfold decodeOne
  cases succ <;> by_cases hret : ret = [] <;>
    by_cases hraw : 0 < beNat (last32 ret) <;>
      simp_all

theorem decodeBatch_eq_filterMap (d : ℕ) (sym : String) (batch : List Addr)
    (results : List SubResult) :
    decodeBatch d sym batch results = (batch.zip results).filterMap (decodeOne d sym) := by
  unfold decodeBatch
  have hbody :
      (fun (nonzero : List BalanceRecord) (pr : Addr × SubResult) =>
        if pr.2.1 = false ∨ pr.2.2 = [] then nonzero
        else
          let raw := beNat (last32 pr.2.2)
          if 0 < raw then nonzero ++ [⟨pr.1, raw, humanStr raw d, sym⟩] else nonzero)
        = fun acc pr => acc ++ (decodeOne d sym pr).toList := by
    funext acc pr
    exact decode_body_eq d sym acc pr
  rw [hbody, foldl_append_toList]
  simp

theorem zip_take_min (l1 : List α) :
    ∀ l2 : List β,
      l1.zip l2 = (l1.take (min l1.length l2.length)).zip (l2.take (min l1.length l2.length)) := by
  induction l1 with
  | nil => intro l2; simp
  | cons a l1 ih =>
    intro l2
    cases l2 with
    | nil => simp
    | cons b l2 =>
      simp only [List.zip_cons_cons, List.length_cons, Nat.succ_min_succ, List.take_succ_cons]
      exact congrArg (List.cons (a, b)) (ih l2)

theorem zip_append_left (extra : List α) :
    ∀ (l1 : List α) (l2 : List β), l2.length ≤ l1.length →
      (l1 ++ extra).zip l2 = l1.zip l2 := by
  intro l1
  induction l1 with
  | nil =>
    intro l2 h
    have : l2 = [] := List.eq_nil_of_length_eq_zero (Nat.le_zero.mp h)
    subst this
    simp
  | cons a l1 ih =>
    intro l2 h
    cases l2 with
    | nil => simp
    | cons b l2 =>
      simp only [List.cons_append, List.zip_cons_cons]
      rw [ih l2 (by simpa using h)]

theorem zip_append_right (extra : List β) :
    ∀ (l1 : List α) (l2 : List β), l1.length ≤ l2.length →
      l1.zip (l2 ++ extra) = l1.zip l2 := by
  intro l1
  induction l1 with
  | nil => intro l2 h; simp
  | cons a l1 ih =>
    intro l2 h
    cases l2 with
    | nil => simp at h
    | cons b l2 =>
      simp only [List.cons_append, List.zip_cons_cons]
      rw [ih l2 (by simpa using h)]

/-! ## Chunking facts -/

theorem chunkedAux_nil (fuel n : ℕ) : chunkedAux fuel ([] : List α) n = [] := by
  cases fuel <;> rfl

theorem chunkedAux_flatten {n : ℕ} (hn : 0 < n) :
    ∀ (fuel : ℕ) (l : List α), l.length ≤ fuel → (chunkedAux fuel l n).flatten = l := by
  intro fuel
  induction fuel with
  | zero =>
    intro l hl
    have : l = [] := List.eq_nil_of_length_eq_zero (Nat.le_zero.mp hl)
    subst this
    simp [chunkedAux]
  | succ fuel ih =>
    intro l hl
    cases l with
    | nil => simp [chunkedAux]
    | cons a as =>
      simp only [chunkedAux, List.flatten_cons]
      rw [ih _ (by simp only [List.length_drop]; simp at hl ⊢; omega)]
      exact List.take_append_drop n (a :: as)

theorem chunked_flatten {n : ℕ} (hn : 0 < n) (l : List α) :
    (chunked l n).flatten = l :=
  chunkedAux_flatten hn l.length l le_rfl

theorem chunkedAux_length_le (n : ℕ) :
    ∀ (fuel : ℕ) (l : List α), ∀ g ∈ chunkedAux fuel l n, g.length ≤ n := by
  intro fuel
  induction fuel with
  | zero => intro l g hg; simp [chunkedAux] at hg
  | succ fuel ih =>
    intro l g hg
    cases l with
    | nil => simp [chunkedAux] at hg
    | cons a as =>
      simp only [chunkedAux, List.mem_cons] at hg
      rcases hg with hg | hg
      · subst hg
        simp [List.length_take]
      · exact ih _ g hg

theorem chunkedAux_mem_of_mem (n : ℕ) :
    ∀ (fuel : ℕ) (l : List α), ∀ g ∈ chunkedAux fuel l n, ∀ x ∈ g, x ∈ l := by
  intro fuel
  induction fuel with
  | zero => intro l g hg; simp [chunkedAux] at hg
  | succ fuel ih =>
    intro l g hg x hx
    cases l with
    | nil => simp [chunkedAux] at hg
    | cons a as =>
      simp only [chunkedAux, List.mem_cons] at hg
      rcases hg with hg | hg
      · subst hg
        exact List.mem_of_mem_take hx
      · exact List.mem_of_mem_drop (ih _ g hg x hx)

theorem chunkedAux_ne_nil {n : ℕ} (hn : 0 < n) :
    ∀ (fuel : ℕ) (l : List α), ∀ g ∈ chunkedAux fuel l n, g ≠ [] := by
  intro fuel
  induction fuel with
  | zero => intro l g hg; simp [chunkedAux] at hg
  | succ fuel ih =>
    intro l g hg
    cases l with
    | nil => simp [chunkedAux] at hg
    | cons a as =>
      simp only [chunkedAux, List.mem_cons] at hg
      rcases hg with hg | hg
      · subst hg
        obtain ⟨n, rfl⟩ := Nat.exists_eq_succ_of_ne_zero hn.ne'
        simp
      · exact ih _ g hg

theorem chunkedAux_dropLast (n : ℕ) :
    ∀ (fuel : ℕ) (l : List α), ∀ g ∈ (chunkedAux fuel l n).dropLast, g.length = n := by
  intro fuel
  induction fuel with
  | zero => intro l g hg; simp [chunkedAux] at hg
  | succ fuel ih =>
    intro l g hg
    cases l with
    | nil => simp [chunkedAux] at hg
    | cons a as =>
      simp only [chunkedAux] at hg
      cases hrest : chunkedAux fuel ((a :: as).drop n) n with
      | nil => rw [hrest] at hg; simp at hg
      | cons r rs =>
        rw [hrest] at hg
        rw [List.dropLast_cons₂] at hg
        rcases List.mem_cons.mp hg with hg | hg
        · subst hg
          have hdrop : (a :: as).drop n ≠ [] := by
            intro hd
            rw [hd, chunkedAux_nil] at hrest
            exact List.cons_ne_nil r rs hrest.symm
          have hlen : n < (a :: as).length := by
            by_contra hc
            exact hdrop (List.drop_eq_nil_of_le (Nat.le_of_not_lt hc))
          simp only [List.length_take, List.length_cons] at *
          omega
        · rw [← hrest] at hg
          exact ih _ g hg

/-! ## Call construction facts -/

theorem foldl_append_singleton_map (f : α → β) :
    ∀ (l : List α) (init : List β),
      l.foldl (fun acc x => acc ++ [f x]) init = init ++ l.map f := by
  intro l
  induction l with
  | nil => intro init; simp
  | cons a l ih => intro init; rw [List.foldl_cons, ih]; simp

theorem buildCalls_eq_map (batch : List Addr) :
    buildCalls batch
      = batch.map fun addr => ⟨USDC_BASE, true, CallData.balanceOf addr⟩ := by
  unfold buildCalls
  rw [foldl_append_singleton_map]
  simp

/-! ## Retry facts -/

theorem rpc_retry_aux_ok (fn : ℕ → Except ε α) (base : ℚ) (a : α) :
    ∀ (rem k i : ℕ) (last : Option ε) (slept : List ℚ),
      k < rem → (∀ j, j < k → ∃ e, fn (i + j) = Except.error e) →
      fn (i + k) = Except.ok a →
      rpc_retry_aux fn base rem i last slept =
        (Except.ok a, slept ++ (List.range k).map fun j => base * 2 ^ (i + j)) := by
  intro rem
  induction rem with
  | zero => intro k i last slept hk; exact absurd hk (Nat.not_lt_zero k)
  | succ rem ih =>
    intro k i last slept hk hfail hok
    cases k with
    | zero =>
      rw [Nat.add_zero] at hok
      simp only [rpc_retry_aux, hok]
      simp
    | succ k' =>
      obtain ⟨e, he⟩ := hfail 0 (Nat.succ_pos k')
      rw [Nat.add_zero] at he
      simp only [rpc_retry_aux, he]
      rw [ih k' (i + 1) (some e) (slept ++ [base * 2 ^ i]) (by omega)
        (fun j hj => by
          obtain ⟨e', he'⟩ := hfail (j + 1) (by omega)
          exact ⟨e', by rwa [show i + 1 + j = i + (j + 1) by omega]⟩)
        (by rwa [show i + 1 + k' = i + (k' + 1) by omega])]
      rw [List.append_assoc]
      congr 1
      rw [List.range_succ_eq_map]
      simp only [List.map_cons, List.map_map, Nat.add_zero, List.singleton_append]
      have hfun : (fun j => base * 2 ^ (i + 1 + j))
          = ((fun j => base * 2 ^ (i + j)) ∘ Nat.succ) := by
        funext j
        simp only [Function.comp_apply]
        congr 2
        omega
      rw [hfun]

theorem rpc_retry_aux_fail (fn : ℕ → Except ε α) (base : ℚ) (errf : ℕ → ε) :
    ∀ (rem i : ℕ) (last : Option ε) (slept : List ℚ), 0 < rem →
      (∀ j, j < rem → fn (i + j) = Except.error (errf (i + j))) →
      (rpc_retry_aux fn base rem i last slept).1
        = Except.error (some (errf (i + rem - 1))) := by
  intro rem
  induction rem with
  | zero => intro i last slept h; exact absurd h (Nat.lt_irrefl 0)
  | succ rem ih =>
    intro i last slept _ hfail
    have he : fn i = Except.error (errf i) := by
      have := hfail 0 (Nat.succ_pos rem)
      rwa [Nat.add_zero] at this
    simp only [rpc_retry_aux, he]
    cases rem with
    | zero => simp [rpc_retry_aux]
    | succ rem' =>
      rw [ih (i + 1) (some (errf i)) (slept ++ [base * 2 ^ i]) (Nat.succ_pos rem')
        (fun j hj => by
          have := hfail (j + 1) (by omega)
          rwa [show i + (j + 1) = i + 1 + j by omega] at this)]
      have harg : i + 1 + (rem' + 1) - 1 = i + (rem' + 1 + 1) - 1 := by omega
      rw [harg]

/-! ## Checksum facts -/

theorem hexLower_hexUpper (c : Char) : hexLower (hexUpper c) = hexLower c := by
  unfold hexUpper
  split_ifs <;> subst_vars <;> rfl

theorem hexLower_idem (c : Char) : hexLower (hexLower c) = hexLower c := by
  by_cases h1 : c = 'A'
  · subst h1; decide
  by_cases h2 : c = 'B'
  · subst h2; decide
  by_cases h3 : c = 'C'
  · subst h3; decide
  by_cases h4 : c = 'D'
  · subst h4; decide
  by_cases h5 : c = 'E'
  · subst h5; decide
  by_cases h6 : c = 'F'
  · subst h6; decide
  have h : hexLower c = c := by
    unfold hexLower
    simp [h1, h2, h3, h4, h5, h6]
  rw [h, h]

theorem hexDigit_hexLower (c : Char) (h : hexDigit c = true) :
    hexDigit (hexLower c) = true := by
  unfold hexLower
  split_ifs <;> subst_vars <;> exact h

theorem hexDigit_hexUpper (c : Char) (h : hexDigit c = true) :
    hexDigit (hexUpper c) = true := by
  unfold hexUpper
  split_ifs <;> subst_vars <;> exact h

theorem checksumCaseGo_map_hexLower (hN : HashOracle) (low : List Char) :
    ∀ (l : List Char) (i : ℕ),
      (checksumCaseGo hN low i l).map hexLower = l.map hexLower := by
  intro l
  induction l with
  | nil => intro i; rfl
  | cons c cs ih =>
    intro i
    simp only [checksumCaseGo, List.map_cons, ih]
    by_cases h : 8 ≤ hN low i
    · rw [if_pos h, hexLower_hexUpper]
    · rw [if_neg h]

theorem checksumCaseGo_length (hN : HashOracle) (low : List Char) :
    ∀ (l : List Char) (i : ℕ), (checksumCaseGo hN low i l).length = l.length := by
  intro l
  induction l with
  | nil => intro i; rfl
  | cons c cs ih => intro i; simp [checksumCaseGo, ih]

theorem checksumCaseGo_hexDigit (hN : HashOracle) (low : List Char) :
    ∀ (l : List Char) (i : ℕ), (∀ c ∈ l, hexDigit c = true) →
      ∀ c ∈ checksumCaseGo hN low i l, hexDigit c = true := by
  intro l
  induction l with
  | nil => intro i _ c hc; simp [checksumCaseGo] at hc
  | cons c0 cs ih =>
    intro i hl c hc
    simp only [checksumCaseGo, List.mem_cons] at hc
    rcases hc with hc | hc
    · subst hc
      by_cases h : 8 ≤ hN low i
      · rw [if_pos h]
        exact hexDigit_hexUpper c0 (hl c0 (List.mem_cons_self c0 cs))
      · rw [if_neg h]
        exact hl c0 (List.mem_cons_self c0 cs)
    · exact ih (i + 1) (fun x hx => hl x (List.mem_cons_of_mem c0 hx)) c hc

theorem toChecksumAddress_data (hN : HashOracle) (s : String) :
    (toChecksumAddress hN s).data
      = '0' :: 'x' :: checksumCaseGo hN ((hexBody s).map hexLower) 0
          ((hexBody s).map hexLower) := by
  rfl

theorem hexBody_toChecksumAddress (hN : HashOracle) (s : String) :
    hexBody (toChecksumAddress hN s)
      = checksumCaseGo hN ((hexBody s).map hexLower) 0 ((hexBody s).map hexLower) := by
  unfold hexBody
  rw [toChecksumAddress_data]
  rfl

theorem toChecksumAddress_idem (hN : HashOracle) (s : String) :
    toChecksumAddress hN (toChecksumAddress hN s) = toChecksumAddress hN s := by
  have hlow : (hexBody (toChecksumAddress hN s)).map hexLower
      = (hexBody s).map hexLower := by
    rw [hexBody_toChecksumAddress, checksumCaseGo_map_hexLower, List.map_map]
    have : hexLower ∘ hexLower = hexLower := by
      funext c
      exact hexLower_idem c
    rw [this]
  show "0x" ++ (checksumCaseGo hN ((hexBody (toChecksumAddress hN s)).map hexLower) 0
      ((hexBody (toChecksumAddress hN s)).map hexLower)).asString = _
  rw [hlow]
  rfl

theorem isAddress_toChecksumAddress (hN : HashOracle) (s : String)
    (h : isAddress hN s = true) :
    isAddress hN (toChecksumAddress hN s) = true := by
  have hhex : isHex40 s = true := by
    unfold isAddress at h
    exact (Bool.and_eq_true_iff.mp h).1
  unfold isHex40 at hhex
  obtain ⟨⟨hpre, hlen⟩, hall⟩ := by
    rw [Bool.and_eq_true_iff, Bool.and_eq_true_iff] at hhex
    exact hhex
  have hlen' : s.data.length = 42 := by
    exact of_decide_eq_true hlen
  have hall' : ∀ c ∈ hexBody s, hexDigit c = true := by
    intro c hc
    exact List.all_eq_true.mp hall c hc
  have hbody := hexBody_toChecksumAddress hN s
  have hbodylen : (hexBody (toChecksumAddress hN s)).length = 40 := by
    rw [hbody, checksumCaseGo_length, List.length_map]
    unfold hexBody
    rw [List.length_drop, hlen']
  have hbodyhex : ∀ c ∈ hexBody (toChecksumAddress hN s), hexDigit c = true := by
    rw [hbody]
    refine checksumCaseGo_hexDigit hN _ _ 0 ?_
    intro c hc
    rcases List.mem_map.mp hc with ⟨c0, hc0, rfl⟩
    exact hexDigit_hexLower c0 (hall' c0 hc0)
  have hhex40 : isHex40 (toChecksumAddress hN s) = true := by
    unfold isHex40
    rw [Bool.and_eq_true_iff, Bool.and_eq_true_iff]
    refine ⟨⟨?_, ?_⟩, ?_⟩
    · rw [toChecksumAddress_data]
      simp
    · rw [decide_eq_true_iff, toChecksumAddress_data]
      simp only [List.length_cons, checksumCaseGo_length, List.length_map]
      unfold hexBody
      rw [List.length_drop, hlen']
    · exact List.all_eq_true.mpr hbodyhex
  unfold isAddress
  rw [Bool.and_eq_true_iff]
  refine ⟨hhex40, ?_⟩
  have hck : isChecksumOk hN (toChecksumAddress hN s) = true := by
    unfold isChecksumOk
    rw [decide_eq_true_iff]
    exact toChecksumAddress_idem hN s
  rw [hck]
  simp

theorem to_checksum_addresses_aux (hN : HashOracle) :
    ∀ (addrs : List String) (ok bad : List String),
      addrs.foldl
        (fun p a =>
          if isAddress hN a then (p.1 ++ [toChecksumAddress hN a], p.2)
          else (p.1, p.2 ++ [a]))
        (ok, bad)
      = (ok ++ (addrs.filter (isAddress hN)).map (toChecksumAddress hN),
         bad ++ addrs.filter (fun a => !(isAddress hN a))) := by
  intro addrs
  induction addrs with
  | nil => intro ok bad; simp
  | cons a addrs ih =>
    intro ok bad
    rw [List.foldl_cons]
    by_cases h : isAddress hN a = true
    · rw [if_pos h, ih]
      simp [List.filter_cons, h]
    · rw [if_neg h, ih]
      simp only [Bool.not_eq_true] at h
      simp [List.filter_cons, h]

theorem to_checksum_addresses_spec (hN : HashOracle) (addrs : List String) :
    to_checksum_addresses hN addrs
      = ((addrs.filter (isAddress hN)).map (toChecksumAddress hN),
         addrs.filter (fun a => !(isAddress hN a))) := by
  unfold to_checksum_addresses
  rw [to_checksum_addresses_aux]
  simp

/-! ## Pipeline facts -/

theorem decodeBatch_symbol (d : ℕ) (sym : String) (batch : List Addr)
    (results : List SubResult) :
    ∀ r ∈ decodeBatch d sym batch results, r.symbol = sym := by
  rw [decodeBatch_eq_filterMap]
  intro r hr
  rcases List.mem_filterMap.mp hr with ⟨pr, _, hsome⟩
  unfold decodeOne at hsome
  by_cases hcond : pr.2.1 = true ∧ pr.2.2 ≠ [] ∧ 0 < beNat (last32 pr.2.2)
  · rw [if_pos hcond] at hsome
    cases hsome
    rfl
  · rw [if_neg hcond] at hsome
    cases hsome

theorem runBatches_symbol (env : RpcEnv) (d : ℕ) (sym : String) :
    ∀ (batches : List (List Addr)) (acc recs : List BalanceRecord),
      (∀ r ∈ acc, r.symbol = sym) →
      runBatches env d sym batches acc = Except.ok recs →
      ∀ r ∈ recs, r.symbol = sym := by
  intro batches
  induction batches with
  | nil =>
    intro acc recs hacc h
    unfold runBatches at h
    cases h
    exact hacc
  | cons b bs ih =>
    intro acc recs hacc h
    unfold runBatches at h
    cases hagg : (rpc_retry (env.aggregateAttempt (buildCalls b)) RETRIES BASE_DELAY).1 with
    | error e =>
      rw [hagg] at h
      cases h
    | ok results =>
      rw [hagg] at h
      refine ih (acc ++ decodeBatch d sym b results) recs ?_ h
      intro r hr
      rcases List.mem_append.mp hr with h1 | h2
      · exact hacc r h1
      · exact decodeBatch_symbol d sym b results r h2

/-! ## Claim theorems -/

/-- C1 (amended): a balance record is emitted for a paired sub-call result
exactly when the success flag is true, the payload is non-empty, and the
big-endian integer read from the trailing 32 bytes is strictly positive; the
display value is the exact `R * 10 ^ -D` whenever the exact quotient fits the
default `Decimal` context's 28 significant digits (beyond that the context
rounds half-even), and in particular `R = 1500000`, `D = 6` displays `"1.5"`. -/
theorem C1_emission_and_display :
    (∀ (d : ℕ) (s : String) (batch : List Addr) (results : List SubResult),
      decodeBatch d s batch results =
        (batch.zip results).filterMap fun pr =>
          if pr.2.1 = true ∧ pr.2.2 ≠ [] ∧ 0 < beNat (last32 pr.2.2) then
            some ⟨pr.1, beNat (last32 pr.2.2), humanStr (beNat (last32 pr.2.2)) d, s⟩
          else none)
    ∧ (∀ R D : ℕ, 0 < R → digitCount (stripZeros R).1 ≤ 28 →
        decVal (pyDecDivPow10 R D).1 (pyDecDivPow10 R D).2 = (R : ℚ) / 10 ^ D)
    ∧ humanStr 1500000 6 = "1.5" := by
  refine ⟨?_, pyDecDivPow10_exact, by decide⟩
  intro d s batch results
  rw [decodeBatch_eq_filterMap]
  rfl

/-- C1 witness: the emission and the exact display at concrete inputs
(`1500000` is the payload `[0x16, 0xE3, 0x60]`). -/
theorem C1_witness :
    (0 < 1500000 ∧ digitCount (stripZeros 1500000).1 ≤ 28) ∧
    decVal (pyDecDivPow10 1500000 6).1 (pyDecDivPow10 1500000 6).2
      = ((1500000 : ℕ) : ℚ) / 10 ^ 6 ∧
    decodeBatch 6 "USDC" ["0xE"] [(true, [22, 227, 96])]
      = [⟨"0xE", 1500000, "1.5", "USDC"⟩] :=
  ⟨⟨by decide, by decide⟩,
   C1_emission_and_display.2.1 1500000 6 (by decide) (by decide),
   by decide⟩

/-- C1 counterexample: for the 12-byte payload encoding `R = 10 ^ 28 + 1`
(with `D = 6`) a record is emitted whose display string denotes
`10 ^ 22`, not the exact value `R * 10 ^ -6`: the default `Decimal`
context rounds the 29-significant-digit quotient to 28 digits. -/
theorem C1_counterexample :
    decodeBatch 6 "USDC" ["0xBig"] [(true, bigPayload)]
      = [⟨"0xBig", 10 ^ 28 + 1, "10000000000000000000000.00000", "USDC"⟩] ∧
    decVal (pyDecDivPow10 (10 ^ 28 + 1) 6).1 (pyDecDivPow10 (10 ^ 28 + 1) 6).2
      ≠ ((10 ^ 28 + 1 : ℕ) : ℚ) / 10 ^ 6 := by
  constructor
  · decide
  · have h : pyDecDivPow10 (10 ^ 28 + 1) 6 = (10 ^ 27, -5) := by decide
    rw [h]
    have hv : decVal (10 ^ 27) (-5) = (10 ^ 27 : ℚ) / 10 ^ 5 := rfl
    rw [hv]
    norm_num

set_option maxRecDepth 4000 in
/-- C2: for a positive chunk size `n`, `chunked` splits a list into
contiguous groups in the original order: their concatenation is the input,
every group is non-empty of size at most `n`, every group but the last has
size exactly `n`; 600 addresses with chunk size 250 give batch sizes
250, 250, 100. -/
theorem C2_chunked :
    (∀ (l : List Addr) (n : ℕ), 0 < n →
      (chunked l n).flatten = l ∧
      (∀ g ∈ chunked l n, g.length ≤ n ∧ g ≠ []) ∧
      (∀ g ∈ (chunked l n).dropLast, g.length = n))
    ∧ (chunked (List.replicate 600 "0xaddr") 250).map List.length
        = [250, 250, 100] := by
  constructor
  · intro l n hn
    refine ⟨chunked_flatten hn l, ?_, ?_⟩
    · intro g hg
      exact ⟨chunkedAux_length_le n l.length l g hg, chunkedAux_ne_nil hn l.length l g hg⟩
    · intro g hg
      exact chunkedAux_dropLast n l.length l g hg
  · decide

/-- C2 witness: the chunking facts at the concrete list `["a","b","c"]` with
chunk size 2. -/
theorem C2_witness :
    0 < 2 ∧
    (chunked ["a", "b", "c"] 2).flatten = ["a", "b", "c"] ∧
    (∀ g ∈ chunked ["a", "b", "c"] 2, g.length ≤ 2 ∧ g ≠ []) ∧
    (∀ g ∈ (chunked ["a", "b", "c"] 2).dropLast, g.length = 2) :=
  ⟨by decide,
   (C2_chunked.1 ["a", "b", "c"] 2 (by decide)).1,
   (C2_chunked.1 ["a", "b", "c"] 2 (by decide)).2.1,
   (C2_chunked.1 ["a", "b", "c"] 2 (by decide)).2.2⟩

/-- C3: a batch of `N` addresses produces exactly `N` sub-calls, one
`balanceOf` call per address in batch order, each targeting the token
contract with the allow-failure flag set. -/
theorem C3_buildCalls :
    ∀ batch : List Addr,
      buildCalls batch
          = batch.map (fun addr => ⟨USDC_BASE, true, CallData.balanceOf addr⟩) ∧
      (buildCalls batch).length = batch.length ∧
      ∀ c ∈ buildCalls batch, c.target = USDC_BASE ∧ c.allowFailure = true := by
  intro batch
  refine ⟨buildCalls_eq_map batch, ?_, ?_⟩
  · rw [buildCalls_eq_map, List.length_map]
  · intro c hc
    rw [buildCalls_eq_map] at hc
    rcases List.mem_map.mp hc with ⟨addr, _, rfl⟩
    exact ⟨rfl, rfl⟩

/-- C3 witness: the sub-calls built for the concrete batch `["0xA", "0xB"]`. -/
theorem C3_witness :
    buildCalls ["0xA", "0xB"]
        = [⟨USDC_BASE, true, CallData.balanceOf "0xA"⟩,
           ⟨USDC_BASE, true, CallData.balanceOf "0xB"⟩] ∧
    (buildCalls ["0xA", "0xB"]).length = 2 ∧
    (⟨USDC_BASE, true, CallData.balanceOf "0xA"⟩ : SubCall) ∈ buildCalls ["0xA", "0xB"] ∧
    ((⟨USDC_BASE, true, CallData.balanceOf "0xA"⟩ : SubCall).target = USDC_BASE
      ∧ (⟨USDC_BASE, true, CallData.balanceOf "0xA"⟩ : SubCall).allowFailure = true) :=
  ⟨by decide, (C3_buildCalls ["0xA", "0xB"]).2.1, by decide,
   (C3_buildCalls ["0xA", "0xB"]).2.2 _ (by decide)⟩

/-- C10: the decode loop is total over arbitrary result lists: the pairing
with the batch truncates at the shorter sequence, surplus addresses or
surplus results are silently ignored, and a successful non-empty payload
shorter than 32 bytes decodes as the big-endian integer over all its bytes. -/
theorem C10_decode_total :
    (∀ (d : ℕ) (s : String) (batch : List Addr) (results : List SubResult),
      decodeBatch d s batch results
        = decodeBatch d s (batch.take (min batch.length results.length))
            (results.take (min batch.length results.length)))
    ∧ (∀ (d : ℕ) (s : String) (batch extra : List Addr) (results : List SubResult),
        results.length ≤ batch.length →
        decodeBatch d s (batch ++ extra) results = decodeBatch d s batch results)
    ∧ (∀ (d : ℕ) (s : String) (batch : List Addr) (results extra : List SubResult),
        batch.length ≤ results.length →
        decodeBatch d s batch (results ++ extra) = decodeBatch d s batch results)
    ∧ (∀ ret : List ℕ, ret.length ≤ 32 → last32 ret = ret)
    ∧ (∀ (d : ℕ) (s : String) (a : Addr) (ret : List ℕ),
        ret ≠ [] → ret.length ≤ 32 → 0 < beNat ret →
        decodeBatch d s [a] [(true, ret)]
          = [⟨a, beNat ret, humanStr (beNat ret) d, s⟩]) := by
  have hlast : ∀ ret : List ℕ, ret.length ≤ 32 → last32 ret = ret := by
    intro ret h
    unfold last32
    rw [Nat.sub_eq_zero_of_le h, List.drop_zero]
  refine ⟨?_, ?_, ?_, hlast, ?_⟩
  · intro d s batch results
    rw [decodeBatch_eq_filterMap, decodeBatch_eq_filterMap, ← zip_take_min]
  · intro d s batch extra results h
    rw [decodeBatch_eq_filterMap, decodeBatch_eq_filterMap, zip_append_left extra batch results h]
  · intro d s batch results extra h
    rw [decodeBatch_eq_filterMap, decodeBatch_eq_filterMap, zip_append_right extra batch results h]
  · intro d s a ret hne h32 hpos
    rw [decodeBatch_eq_filterMap]
    have hl := hlast ret h32
    simp only [List.zip_cons_cons, List.zip_nil_right, List.filterMap_cons, List.filterMap_nil]
    unfold decodeOne
    rw [if_pos ⟨rfl, by simpa using hne, by simpa [hl] using hpos⟩]
    simp [hl]

/-- C10 witness: truncation and short-payload decoding at concrete inputs
(the payload `[2]` is one byte long and decodes to `2`, displayed at six
decimals as `"0.000002"`). -/
theorem C10_witness :
    decodeBatch 6 "USDC" (["0xA"] ++ ["0xB"]) [(true, [2])]
      = decodeBatch 6 "USDC" ["0xA"] [(true, [2])] ∧
    last32 [2] = [2] ∧
    decodeBatch 6 "USDC" ["0xA"] [(true, [2])]
      = [⟨"0xA", 2, "0.000002", "USDC"⟩] := by
  refine ⟨C10_decode_total.2.1 6 "USDC" ["0xA"] ["0xB"] [(true, [2])] (by decide),
    C10_decode_total.2.2.2.1 [2] (by decide), ?_⟩
  have h := C10_decode_total.2.2.2.2 6 "USDC" "0xA" [2] (by decide) (by decide) (by decide)
  rw [h]
  decide

/-- C4: if the attempts fail on a prefix and succeed at attempt `k` within
the maximum, `rpc_retry` returns the successful result without raising,
having slept `base * 2 ^ 0, ..., base * 2 ^ (k-1)` — strictly increasing (for
a positive base) with each delay double the previous; if every attempt
within the maximum fails, the last error is re-raised. -/
theorem C4_rpc_retry :
    (∀ (ε α : Type) (fn : ℕ → Except ε α) (retries : ℕ) (base : ℚ)
        (errf : ℕ → ε) (k : ℕ) (a : α),
      k < retries → (∀ j, j < k → fn j = Except.error (errf j)) →
      fn k = Except.ok a →
      rpc_retry fn retries base
          = (Except.ok a, (List.range k).map fun j => base * 2 ^ j) ∧
      (0 < base → ((List.range k).map fun j => base * 2 ^ j).Pairwise (· < ·)) ∧
      (∀ j : ℕ, base * 2 ^ (j + 1) = 2 * (base * 2 ^ j)))
    ∧ (∀ (ε α : Type) (fn : ℕ → Except ε α) (retries : ℕ) (base : ℚ)
        (errf : ℕ → ε),
        0 < retries → (∀ j, j < retries → fn j = Except.error (errf j)) →
        (rpc_retry fn retries base).1 = Except.error (some (errf (retries - 1)))) := by
  constructor
  · intro ε α fn retries base errf k a hk hfail hok
    refine ⟨?_, ?_, ?_⟩
    · unfold rpc_retry
      rw [rpc_retry_aux_ok fn base a retries k 0 none [] hk
        (fun j hj => ⟨errf j, by simpa using hfail j hj⟩) (by simpa using hok)]
      simp
    · intro hbase
      refine (List.pairwise_lt_range k).map (fun j => base * 2 ^ j) ?_
      intro i j hij
      exact mul_lt_mul_of_pos_left (pow_lt_pow_right₀ one_lt_two hij) hbase
    · intro j
      ring
  · intro ε α fn retries base errf hpos hfail
    unfold rpc_retry
    rw [rpc_retry_aux_fail fn base errf retries 0 none [] hpos
      (fun j hj => by simpa using hfail j hj)]
    simp

/-- C4 witness: attempts that fail on attempts 1-5 and succeed on attempt 6
(indices 0-4 and 5) return the success with five strictly increasing sleeps;
always-failing attempts re-raise the last error. -/
theorem C4_witness :
    (5 < 6 ∧ retryDemoOk 5 = Except.ok 99) ∧
    rpc_retry retryDemoOk 6 (2 / 5)
        = (Except.ok 99, (List.range 5).map fun j => (2 / 5 : ℚ) * 2 ^ j) ∧
    ((List.range 5).map fun j => (2 / 5 : ℚ) * 2 ^ j).Pairwise (· < ·) ∧
    (rpc_retry retryDemoFail 6 (2 / 5)).1 = Except.error (some 5) :=
  ⟨⟨by decide, by decide⟩,
   (C4_rpc_retry.1 ℕ ℕ retryDemoOk 6 (2 / 5) id 5 99 (by decide) (by decide) (by decide)).1,
   (C4_rpc_retry.1 ℕ ℕ retryDemoOk 6 (2 / 5) id 5 99 (by decide) (by decide) (by decide)).2.1
     (by norm_num),
   C4_rpc_retry.2 ℕ ℕ retryDemoFail 6 (2 / 5) id (by decide) (fun j _ => rfl)⟩

/-- C5: if the symbol fetch fails after its retries the run continues with
the hardcoded default symbol `"USDC"` (every emitted record carries it),
whereas a decimals fetch that fails all attempts propagates its last error
unhandled, with no fallback value. -/
theorem C5_symbol_fallback_decimals_fatal :
    (∀ (env : RpcEnv) (addrs : List Addr) (cs d : ℕ) (e : Option String),
      (rpc_retry env.decimalsAttempt RETRIES BASE_DELAY).1 = Except.ok d →
      (rpc_retry env.symbolAttempt RETRIES BASE_DELAY).1 = Except.error e →
      get_usdc_nonzero_multicall env addrs cs
          = runBatches env d "USDC" (chunked addrs cs) [] ∧
      (∀ recs, get_usdc_nonzero_multicall env addrs cs = Except.ok recs →
        ∀ r ∈ recs, r.symbol = "USDC"))
    ∧ (∀ (env : RpcEnv) (addrs : List Addr) (cs : ℕ) (errf : ℕ → String),
        (∀ i, i < RETRIES → env.decimalsAttempt i = Except.error (errf i)) →
        get_usdc_nonzero_multicall env addrs cs
          = Except.error (some (errf (RETRIES - 1)))) := by
  constructor
  · intro env addrs cs d e hd hs
    have heq : get_usdc_nonzero_multicall env addrs cs
        = runBatches env d "USDC" (chunked addrs cs) [] := by
      unfold get_usdc_nonzero_multicall
      rw [hd, hs]
    refine ⟨heq, ?_⟩
    intro recs hok r hr
    rw [heq] at hok
    exact runBatches_symbol env d "USDC" (chunked addrs cs) [] recs
      (by intro x hx; cases hx) hok r hr
  · intro env addrs cs errf hfail
    have hd : (rpc_retry env.decimalsAttempt RETRIES BASE_DELAY).1
        = Except.error (some (errf (RETRIES - 1))) := by
      unfold rpc_retry
      rw [rpc_retry_aux_fail env.decimalsAttempt BASE_DELAY errf RETRIES 0 none []
        (by decide) (fun j hj => by simpa using hfail j hj)]
      simp
    unfold get_usdc_nonzero_multicall
    rw [hd]

/-- C5 witness: a run with a failing symbol fetch still emits its record with
symbol `"USDC"`; a run with a failing decimals fetch errors out with that
error. -/
theorem C5_witness :
    ((rpc_retry rpcSymbolFailEnv.decimalsAttempt RETRIES BASE_DELAY).1 = Except.ok 6 ∧
     (rpc_retry rpcSymbolFailEnv.symbolAttempt RETRIES BASE_DELAY).1
        = Except.error (some "symbol boom")) ∧
    get_usdc_nonzero_multicall rpcSymbolFailEnv [demoValidAddr] 250
        = runBatches rpcSymbolFailEnv 6 "USDC" (chunked [demoValidAddr] 250) [] ∧
    get_usdc_nonzero_multicall rpcDecimalsFailEnv [demoValidAddr] 250
        = Except.error (some "decimals boom") :=
  ⟨⟨by decide, by decide⟩,
   (C5_symbol_fallback_decimals_fatal.1 rpcSymbolFailEnv [demoValidAddr] 250 6
      (some "symbol boom") (by decide) (by decide)).1,
   C5_symbol_fallback_decimals_fatal.2 rpcDecimalsFailEnv [demoValidAddr] 250
     (fun _ => "decimals boom") (fun _ _ => rfl)⟩

/-- C6: validation partitions the input: the valid entries, normalized to
checksummed form, and the invalid entries, in order; an invalid string lands
in the invalid list, appears in no RPC batch, and is surfaced only as a count
in the warning message. -/
theorem C6_validation :
    ∀ (hN : HashOracle) (addrs : List String),
      (to_checksum_addresses hN addrs).1
          = (addrs.filter (isAddress hN)).map (toChecksumAddress hN) ∧
      (to_checksum_addresses hN addrs).2
          = addrs.filter (fun a => !(isAddress hN a)) ∧
      (∀ a ∈ addrs, isAddress hN a = false → a ∈ (to_checksum_addresses hN addrs).2) ∧
      (∀ a : String, isAddress hN a = false →
        ∀ (n : ℕ) (g : List String),
          g ∈ chunked (to_checksum_addresses hN addrs).1 n → a ∉ g) ∧
      (∀ bad bad' : List String, bad.length = bad'.length →
        invalidWarning bad = invalidWarning bad') := by
  intro hN addrs
  have hspec := to_checksum_addresses_spec hN addrs
  refine ⟨by rw [hspec], by rw [hspec], ?_, ?_, ?_⟩
  · intro a ha hfalse
    rw [hspec]
    exact List.mem_filter.mpr ⟨ha, by rw [hfalse]; rfl⟩
  · intro a hfalse n g hg hmem
    have hok : a ∈ (to_checksum_addresses hN addrs).1 := by
      unfold chunked at hg
      exact chunkedAux_mem_of_mem n _ _ g hg a hmem
    rw [hspec] at hok
    rcases List.mem_map.mp hok with ⟨s, hs, rfl⟩
    have hvalid : isAddress hN s = true := (List.mem_filter.mp hs).2
    rw [isAddress_toChecksumAddress hN s hvalid] at hfalse
    cases hfalse
  · intro bad bad' hlen
    unfold invalidWarning
    rw [hlen]

/-- C6 witness: the concrete input `[demoValidAddr, "oops"]`: the invalid
string is collected, never batched, and only counted. -/
theorem C6_witness :
    (isAddress hashZero "oops" = false ∧
     "oops" ∈ (to_checksum_addresses hashZero [demoValidAddr, "oops"]).2) ∧
    ([demoValidAddr] ∈ chunked (to_checksum_addresses hashZero [demoValidAddr, "oops"]).1 250 ∧
     "oops" ∉ [demoValidAddr]) ∧
    invalidWarning ["oops"] = invalidWarning ["a completely different string"] :=
  ⟨⟨by decide,
    (C6_validation hashZero [demoValidAddr, "oops"]).2.2.1 "oops" (by decide) (by decide)⟩,
   ⟨by decide,
    (C6_validation hashZero [demoValidAddr, "oops"]).2.2.2.1 "oops" (by decide) 250
      [demoValidAddr] (by decide)⟩,
   (C6_validation hashZero [demoValidAddr, "oops"]).2.2.2.2 ["oops"]
     ["a completely different string"] (by decide)⟩

/-- C7: checksum normalization is idempotent on valid addresses of any
letter case: normalizing an already-normalized address changes nothing. -/
theorem C7_checksum_idempotent :
    ∀ (hN : HashOracle) (s : String), isAddress hN s = true →
      toChecksumAddress hN (toChecksumAddress hN s) = toChecksumAddress hN s :=
  fun hN s _ => toChecksumAddress_idem hN s

/-- C7 witness: idempotence at a concrete valid address. -/
theorem C7_witness :
    isAddress hashZero demoValidAddr = true ∧
    toChecksumAddress hashZero (toChecksumAddress hashZero demoValidAddr)
      = toChecksumAddress hashZero demoValidAddr :=
  ⟨by decide, C7_checksum_idempotent hashZero demoValidAddr (by decide)⟩

/-- C8 (amended): the reporter prints one stdout line per record in the form
`address,human_amount symbol`, and with an output path writes the header row
`address,usdc_raw,usdc,symbol` followed by one row per record (no CSV
without an output path). -/
theorem C8_reporter_format :
    ∀ (env : MainEnv) (chunk : ℕ) (recs : List BalanceRecord),
      env.connected = true →
      get_usdc_nonzero_multicall env.rpc (to_checksum_addresses env.hN env.fileAddrs).1 chunk
        = Except.ok recs →
      (mainRun env chunk true).stdout
          = recs.map (fun r => r.addr ++ "," ++ r.human ++ " " ++ r.symbol) ∧
      (mainRun env chunk true).csv
          = some (["address", "usdc_raw", "usdc", "symbol"]
              :: recs.map fun r => [r.addr, Nat.repr r.raw, r.human, r.symbol]) ∧
      (mainRun env chunk false).csv = none := by
  intro env chunk recs hconn hok
  unfold mainRun
  rw [hconn]
  rw [if_neg (by simp : ¬(true = false))]
  simp only [hok]
  exact ⟨rfl, rfl, rfl⟩

/-- C8 counterexample: the header row the script writes is
`address,usdc_raw,usdc,symbol`, not `address,token_raw,token,symbol`
(shown on a run over an empty address file, whose CSV is just the header). -/
theorem C8_header_counterexample :
    (mainRun mainEnvNoInput 250 true).csv
      = some [["address", "usdc_raw", "usdc", "symbol"]] ∧
    ["address", "usdc_raw", "usdc", "symbol"]
      ≠ ["address", "token_raw", "token", "symbol"] := by
  constructor
  · decide
  · decide

/-- C8 witness: the report of a concrete run with one record of 1 raw unit at
six decimals. -/
theorem C8_witness :
    (mainEnvOk.connected = true ∧
     get_usdc_nonzero_multicall mainEnvOk.rpc
        (to_checksum_addresses mainEnvOk.hN mainEnvOk.fileAddrs).1 250
       = Except.ok [⟨demoValidAddr, 1, "0.000001", "USDC"⟩]) ∧
    (mainRun mainEnvOk 250 true).stdout = [demoValidAddr ++ ",0.000001 USDC"] ∧
    (mainRun mainEnvOk 250 true).csv
      = some [["address", "usdc_raw", "usdc", "symbol"],
              [demoValidAddr, "1", "0.000001", "USDC"]] ∧
    (mainRun mainEnvOk 250 false).csv = none := by
  have h := C8_reporter_format mainEnvOk 250 [⟨demoValidAddr, 1, "0.000001", "USDC"⟩]
    (by decide) (by decide)
  exact ⟨⟨by decide, by decide⟩, by rw [h.1]; decide, by rw [h.2.1]; decide, h.2.2⟩

/-- C9: `main` exits with code 2, reporting to stderr, when the RPC endpoint
is unreachable at startup, and with code 0 on normal completion — including
a run that finds no non-zero balances. -/
theorem C9_exit_codes :
    (∀ (env : MainEnv) (chunk : ℕ) (w : Bool), env.connected = false →
      (mainRun env chunk w).exitCode = 2 ∧
      (mainRun env chunk w).stderr
        = ["ERROR: Could not connect to RPC: " ++ env.rpcUrl])
    ∧ (∀ (env : MainEnv) (chunk : ℕ) (w : Bool) (recs : List BalanceRecord),
        env.connected = true →
        get_usdc_nonzero_multicall env.rpc
            (to_checksum_addresses env.hN env.fileAddrs).1 chunk = Except.ok recs →
        (mainRun env chunk w).exitCode = 0) := by
  constructor
  · intro env chunk w hconn
    unfold mainRun
    rw [hconn]
    rw [if_pos rfl]
    exact ⟨rfl, rfl⟩
  · intro env chunk w recs hconn hok
    unfold mainRun
    rw [hconn]
    rw [if_neg (by simp : ¬(true = false))]
    simp only [hok]

/-- C9 witness: a disconnected environment exits 2 with the error on stderr;
a connected run finding no balances exits 0. -/
theorem C9_witness :
    (mainEnvDown.connected = false ∧
     (mainRun mainEnvDown 250 false).exitCode = 2 ∧
     (mainRun mainEnvDown 250 false).stderr
        = ["ERROR: Could not connect to RPC: " ++ mainEnvDown.rpcUrl]) ∧
    (mainEnvEmpty.connected = true ∧
     get_usdc_nonzero_multicall mainEnvEmpty.rpc
        (to_checksum_addresses mainEnvEmpty.hN mainEnvEmpty.fileAddrs).1 250
       = Except.ok [] ∧
     (mainRun mainEnvEmpty 250 false).exitCode = 0) :=
  ⟨⟨by decide,
    (C9_exit_codes.1 mainEnvDown 250 false (by decide)).1,
    (C9_exit_codes.1 mainEnvDown 250 false (by decide)).2⟩,
   ⟨by decide, by decide,
    C9_exit_codes.2 mainEnvEmpty 250 false [] (by decide) (by decide)⟩⟩

end UsdcChecker
